import Mathlib

/-!
Verification of the minigrep core from the rust-study repository.

The code under verification lives in src/src/lib.rs:
* `Config::build` consumes an iterator of argument strings: it discards the
  first element (the program name), takes the next element as `query` and the
  one after that as `file_path`, returning a distinct static error string when
  either is missing.
* `search(query, contents)` returns `contents.lines().filter(|line|
  line.contains(query)).collect()`.

Strings are modelled as `List Char` (one entry per Unicode code point, exactly
the view Rust's `str::lines` and `str::contains` take of a `&str`), and the
standard-library functions `str::lines` and `str::contains` are embedded
following their documented semantics: `lines` splits at each line feed,
additionally removing one carriage return that immediately precedes a line
feed, and does not emit a trailing empty line for a terminator at the very end;
`contains` with a string pattern is contiguous (infix) substring containment.
-/

namespace Minigrep

/-- The `Config` struct of src/src/lib.rs: a query string and a file path. -/
structure Config where
  query : String
  file_path : String
  deriving DecidableEq

/-- The two distinct error values of `Config::build` (src/src/lib.rs lines 18
and 23).  The Rust code uses two distinct static strings (a message about a
missing query string, and a message about a missing file path); they are
modelled by the two constructors of this inductive type. -/
inductive ConfigError where
  | MissingQuery : ConfigError
  | MissingFilePath : ConfigError
  deriving DecidableEq

/-- `Config::build` (src/src/lib.rs lines 11-28).  The iterator of argument
strings is modelled as a `List String`; `args.next()` calls become positional
access: the first element is discarded, the second becomes `query`, the third
becomes `file_path`, and anything after that is never requested from the
iterator. -/
def build (args : List String) : Except ConfigError Config :=
  match args.drop 1 with
  | [] => Except.error ConfigError.MissingQuery
  | query :: rest =>
    match rest with
    | [] => Except.error ConfigError.MissingFilePath
    | file_path :: _ => Except.ok { query := query, file_path := file_path }

/-- Split a character list at each line feed.  `splitNL s` is the list of
maximal segments of `s` that contain no line feed; a terminator at the end of
`s` produces a trailing empty segment (e.g. `splitNL "a\n" = [[a], []]`), and
`splitNL [] = [[]]`. -/
def splitNL : List Char → List (List Char)
  | [] => [[]]
  | c :: rest =>
    if c = '\n' then [] :: splitNL rest
    else
      match splitNL rest with
      | [] => [[c]]
      | seg :: segs => (c :: seg) :: segs

/-- Remove one trailing carriage return, if present.  Rust's `str::lines`
applies this to every segment that was terminated by a line feed, so that a
CRLF sequence counts as a single terminator. -/
def stripCR (l : List Char) : List Char :=
  if l.getLast? = some '\r' then l.dropLast else l

/-- Turn the segments produced by `splitNL` into the lines Rust's `str::lines`
yields: every segment but the last was terminated by a line feed and has a
trailing carriage return stripped; the final segment was not terminated, is
kept verbatim, and is dropped entirely when empty (so a trailing terminator
does not produce an extra empty line). -/
def assemble : List (List Char) → List (List Char)
  | [] => []
  | [seg] => if seg = [] then [] else [seg]
  | seg :: seg2 :: segs => stripCR seg :: assemble (seg2 :: segs)

/-- Embedding of Rust's `str::lines`, as invoked by `search`. -/
def rustLines (s : List Char) : List (List Char) :=
  assemble (splitNL s)

/-- Embedding of Rust's `str::contains` with a `&str` pattern, as invoked by
`search`: contiguous, case-sensitive, codepoint-exact substring containment.
`pat <:+: s` is `List.IsInfix`: some prefix of `s` dropped, `pat` occurs, then
some suffix follows. -/
def strContains (s pat : List Char) : Bool :=
  decide (pat <:+: s)

/-- The `search` function (src/src/lib.rs lines 42-47):
`contents.lines().filter(|line| line.contains(query)).collect()`. -/
def search (query contents : List Char) : List (List Char) :=
  (rustLines contents).filter (fun line => strContains line query)

/-! Basic facts about the embedded `str::lines`. -/

theorem splitNL_ne_nil (s : List Char) : splitNL s ≠ [] := by
  cases s with
  | nil => simp [splitNL]
  | cons c rest =>
    simp only [splitNL]
    split
    · simp
    · split <;> simp

theorem splitNL_of_no_newline (s : List Char) (h : '\n' ∉ s) :
    splitNL s = [s] := by
  induction s with
  | nil => rfl
  | cons c rest ih =>
    have hc : c ≠ '\n' := fun hc => h (hc ▸ List.mem_cons_self c rest)
    have hrest : '\n' ∉ rest := fun hr => h (List.mem_cons_of_mem c hr)
    simp only [splitNL, if_neg hc, ih hrest]

theorem splitNL_append (a b : List Char) (h : '\n' ∉ a) :
    splitNL (a ++ '\n' :: b) = a :: splitNL b := by
  induction a with
  | nil => simp [splitNL]
  | cons c rest ih =>
    have hc : c ≠ '\n' := fun hc => h (hc ▸ List.mem_cons_self c rest)
    have hrest : '\n' ∉ rest := fun hr => h (List.mem_cons_of_mem c hr)
    simp only [List.cons_append, splitNL, if_neg hc]
    rw [List.append_eq, ih hrest]

theorem mem_splitNL_no_newline (s : List Char) (l : List Char)
    (hl : l ∈ splitNL s) : '\n' ∉ l := by
  induction s generalizing l with
  | nil =>
    simp only [splitNL, List.mem_singleton] at hl
    subst hl; simp
  | cons c rest ih =>
    simp only [splitNL] at hl
    by_cases hc : c = '\n'
    · rw [if_pos hc] at hl
      rcases List.mem_cons.mp hl with h1 | h2
      · subst h1; simp
      · exact ih l h2
    · rw [if_neg hc] at hl
      cases hsp : splitNL rest with
      | nil => exact absurd hsp (splitNL_ne_nil rest)
      | cons seg segs =>
        rw [hsp] at hl
        rcases List.mem_cons.mp hl with h1 | h2
        · subst h1
          intro hmem
          rcases List.mem_cons.mp hmem with h3 | h4
          · exact hc h3.symm
          · exact ih seg (hsp ▸ List.mem_cons_self seg segs) h4
        · exact ih l (hsp ▸ List.mem_cons_of_mem seg h2)

theorem stripCR_subset (l : List Char) : stripCR l ⊆ l := by
  unfold stripCR
  split
  · exact (List.dropLast_sublist l).subset
  · exact fun a ha => ha

theorem assemble_cons (seg : List Char) (segs : List (List Char))
    (h : segs ≠ []) :
    assemble (seg :: segs) = stripCR seg :: assemble segs := by
  cases segs with
  | nil => exact absurd rfl h
  | cons seg2 rest => rfl

theorem mem_assemble (segs : List (List Char)) (l : List Char)
    (hl : l ∈ assemble segs) : ∃ seg ∈ segs, l = stripCR seg ∨ l = seg := by
  induction segs with
  | nil => simp [assemble] at hl
  | cons seg rest ih =>
    cases rest with
    | nil =>
      simp only [assemble] at hl
      split at hl
      · simp at hl
      · simp only [List.mem_singleton] at hl
        exact ⟨seg, List.mem_cons_self seg [], Or.inr hl⟩
    | cons seg2 rest2 =>
      rw [assemble_cons seg (seg2 :: rest2) (by simp)] at hl
      rcases List.mem_cons.mp hl with h1 | h2
      · exact ⟨seg, List.mem_cons_self _ _, Or.inl h1⟩
      · obtain ⟨s, hs, hor⟩ := ih h2
        exact ⟨s, List.mem_cons_of_mem seg hs, hor⟩

theorem mem_rustLines_no_newline (contents l : List Char)
    (hl : l ∈ rustLines contents) : '\n' ∉ l := by
  obtain ⟨seg, hseg, hor⟩ := mem_assemble (splitNL contents) l hl
  have hseg' : '\n' ∉ seg := mem_splitNL_no_newline contents seg hseg
  rcases hor with h | h
  · subst h
    exact fun hmem => hseg' (stripCR_subset seg hmem)
  · subst h
    exact hseg'

theorem rustLines_nil : rustLines [] = [] := rfl

theorem rustLines_of_no_newline (c : List Char) (hne : c ≠ [])
    (h : '\n' ∉ c) : rustLines c = [c] := by
  unfold rustLines
  rw [splitNL_of_no_newline c h]
  simp [assemble, hne]

theorem rustLines_append (a b : List Char) (h : '\n' ∉ a) :
    rustLines (a ++ '\n' :: b) = stripCR a :: rustLines b := by
  unfold rustLines
  rw [splitNL_append a b h, assemble_cons a (splitNL b) (splitNL_ne_nil b)]

/-! The claims. -/

/-- C1: a line of `contents` belongs to `search query contents` if and only if
it contains `query` as a contiguous, case-sensitive literal substring: every
returned line contains `query`, and every line of `contents` not returned does
not contain `query`. -/
theorem search_mem_iff_contains (query contents line : List Char)
    (h : line ∈ rustLines contents) :
    line ∈ search query contents ↔ strContains line query = true := by
  unfold search
  rw [List.mem_filter]
  exact and_iff_right h

theorem search_mem_iff_contains_witness :
    ("safe, fast, productive.".toList ∈
        search "duct".toList "Rust:\nsafe, fast, productive.\nPick three.".toList ↔
      strContains "safe, fast, productive.".toList "duct".toList = true) ∧
    ("Pick three.".toList ∈
        search "duct".toList "Rust:\nsafe, fast, productive.\nPick three.".toList ↔
      strContains "Pick three.".toList "duct".toList = true) :=
  ⟨search_mem_iff_contains "duct".toList
      "Rust:\nsafe, fast, productive.\nPick three.".toList
      "safe, fast, productive.".toList (by decide),
   search_mem_iff_contains "duct".toList
      "Rust:\nsafe, fast, productive.\nPick three.".toList
      "Pick three.".toList (by decide)⟩

/-- C2: the result of `search` is a subsequence of the lines of `contents`,
preserving their original relative order; in particular its length is at most
the number of lines of `contents`. -/
theorem search_sublist_lines (query contents : List Char) :
    (search query contents).Sublist (rustLines contents) ∧
    (search query contents).length ≤ (rustLines contents).length :=
  ⟨List.filter_sublist (rustLines contents),
   (List.filter_sublist (rustLines contents)).length_le⟩

/-- C3: `build` fails with `MissingQuery` when the argument sequence yields no
second element, fails with `MissingFilePath` when it yields no third element,
and otherwise succeeds with `query` the second element and `file_path` the
third; concretely on `["prog"]`, `["prog", "q"]` and `["prog", "q", "f.txt"]`. -/
theorem build_positional (args : List String) :
    (args[1]? = none → build args = Except.error ConfigError.MissingQuery) ∧
    (args[1]? ≠ none → args[2]? = none →
      build args = Except.error ConfigError.MissingFilePath) ∧
    (∀ q f, args[1]? = some q → args[2]? = some f →
      build args = Except.ok { query := q, file_path := f }) ∧
    build ["prog"] = Except.error ConfigError.MissingQuery ∧
    build ["prog", "q"] = Except.error ConfigError.MissingFilePath ∧
    build ["prog", "q", "f.txt"] = Except.ok { query := "q", file_path := "f.txt" } := by
  refine ⟨?_, ?_, ?_, rfl, rfl, rfl⟩
  · intro h
    match args with
    | [] => rfl
    | [a] => rfl
    | a :: b :: rest => simp at h
  · intro h1 h2
    match args with
    | [] => simp at h1
    | [a] => simp at h1
    | [a, b] => rfl
    | a :: b :: c :: rest => simp at h2
  · intro q f h1 h2
    match args with
    | [] => simp at h1
    | [a] => simp at h1
    | [a, b] => simp at h2
    | a :: b :: c :: rest =>
      simp only [List.getElem?_cons_succ, List.getElem?_cons_zero,
        Option.some.injEq] at h1 h2
      subst h1
      subst h2
      rfl

theorem build_positional_witness :
    build ["cmd"] = Except.error ConfigError.MissingQuery ∧
    build ["cmd", "needle"] = Except.error ConfigError.MissingFilePath ∧
    build ["cmd", "needle", "poem.txt", "extra"] =
      Except.ok { query := "needle", file_path := "poem.txt" } :=
  ⟨(build_positional ["cmd"]).1 rfl,
   (build_positional ["cmd", "needle"]).2.1 (by simp) rfl,
   (build_positional ["cmd", "needle", "poem.txt", "extra"]).2.2.1
      "needle" "poem.txt" rfl rfl⟩

/-- C4: `search` splits `contents` by the universal line-break convention:
there are no lines in empty contents; a nonempty chunk free of line feeds is a
single line, included even though unterminated; a line feed ends the current
line, whose terminator (the line feed, together with a carriage return
immediately before it, via `stripCR`) is stripped; and consequently no line
that `search` returns contains a line terminator. -/
theorem lines_convention :
    rustLines [] = [] ∧
    (∀ c : List Char, c ≠ [] → '\n' ∉ c → rustLines c = [c]) ∧
    (∀ a b : List Char, '\n' ∉ a →
      rustLines (a ++ '\n' :: b) = stripCR a :: rustLines b) ∧
    (∀ query contents line : List Char,
      line ∈ search query contents → '\n' ∉ line) :=
  ⟨rustLines_nil, rustLines_of_no_newline, rustLines_append,
   fun _ contents line hl =>
     mem_rustLines_no_newline contents line
       ((List.filter_sublist (rustLines contents)).subset hl)⟩

theorem lines_convention_witness :
    rustLines ("safe\r".toList ++ '\n' :: "fast".toList) =
      stripCR "safe\r".toList :: rustLines "fast".toList ∧
    rustLines "Pick three.".toList = ["Pick three.".toList] :=
  ⟨lines_convention.2.2.1 "safe\r".toList "fast".toList (by decide),
   lines_convention.2.1 "Pick three.".toList (by decide) (by decide)⟩

/-- C5: the empty query matches every line: `search [] contents` returns every
line of `contents`, in original order. -/
theorem search_empty_query (contents : List Char) :
    search [] contents = rustLines contents := by
  unfold search
  exact List.filter_eq_self.mpr fun line _ => by
    simp [strContains, List.nil_infix]

/-- C6: searching empty contents returns an empty sequence, for every query. -/
theorem search_empty_contents (query : List Char) : search query [] = [] := rfl

/-- C7: matching is case-sensitive: an upper-case query does not match the
lower-case text. -/
theorem search_case_sensitive :
    search "RUST".toList "rust:\nsafe, fast, productive.".toList = [] := by
  decide

/-- C8: `search` is deterministic: two invocations on equal queries and equal
contents yield equal results.  It is moreover a total function of its two
arguments (it is defined here by structural recursion and filtering, with no
failure outcome in its type), so it never fails on any text input. -/
theorem search_deterministic (q1 q2 c1 c2 : List Char)
    (hq : q1 = q2) (hc : c1 = c2) : search q1 c1 = search q2 c2 := by
  rw [hq, hc]

theorem search_deterministic_witness :
    search "duct".toList "Rust:\nPick three.".toList =
      search "duct".toList "Rust:\nPick three.".toList :=
  search_deterministic "duct".toList "duct".toList
    "Rust:\nPick three.".toList "Rust:\nPick three.".toList rfl rfl

/-- C9: `build` ignores every argument after the third: on any sequence with
at least three elements it succeeds with the second element as `query` and the
third as `file_path`, whatever the remaining elements are. -/
theorem build_ignores_extra_args (p q f : String) (rest : List String) :
    build (p :: q :: f :: rest) = Except.ok { query := q, file_path := f } := rfl

/-- C10: a query that contains a line feed never matches: no line produced by
the split contains a line feed, so `search` returns the empty sequence. -/
theorem search_newline_query (query contents : List Char)
    (h : '\n' ∈ query) : search query contents = [] := by
  unfold search
  refine List.filter_eq_nil_iff.mpr fun line hline hp => ?_
  have h1 : '\n' ∉ line := mem_rustLines_no_newline contents line hline
  have h2 : query <:+: line := of_decide_eq_true hp
  exact h1 (h2.subset h)

theorem search_newline_query_witness :
    search "\n".toList "ab\ncd".toList = [] :=
  search_newline_query "\n".toList "ab\ncd".toList (by decide)

end Minigrep
